import Mathlib

set_option maxRecDepth 100000

/-!
Verification of the mp3-merging script (`merge_mp3.py`) against its
natural-language specification.

The script is embedded shallowly: Python strings become `List Char`
(`PyStr`), the regular expressions used by the script are translated into
explicit position-by-position matchers with the exact leftmost / greedy /
lazy semantics of Python's `re` module on those concrete patterns, the
global `folge_counter` becomes explicit state threading, and
`difflib.SequenceMatcher.ratio()` (used by `similar`) is embedded
function-by-function (`__chain_b` with `autojunk=True`,
`find_longest_match`, the matching-block recursion and the final ratio),
with the float ratio represented exactly as a rational number.

Modelling notes, recorded once here:
* Python's `\s` also matches a handful of non-ASCII Unicode whitespace
  characters; the embedding models the ASCII whitespace set, which is
  exhaustive for ASCII inputs.
* Float arithmetic in `ratio()` is `2.0 * matches / (len(a) + len(b))`;
  it is modelled as the exact rational `2 * matches / (la + lb)`.
-/

namespace MergeMp3

/-- Python strings are modelled as lists of characters. -/
abbrev PyStr := List Char

/-- The characters matched by Python's `\s` (ASCII part: space, tab,
newline, carriage return, vertical tab, form feed). -/
def isPySpace (c : Char) : Bool :=
  c = ' ' || c = '\t' || c = '\n' || c = '\r' || c = '\x0b' || c = '\x0c'

/-- The characters matched by `\d` (ASCII digits). -/
def isDigitChar (c : Char) : Bool := c.isDigit

/-- Value of a decimal digit string, as computed by Python's `int`. -/
def natFromDigits (ds : PyStr) : ℕ :=
  ds.foldl (fun n c => n * 10 + (c.toNat - '0'.toNat)) 0

/-- Model of `re.search`: try the position matcher at every position of
the string, leftmost position first (Python scans start positions left to
right, including the end-of-string position). -/
def searchPos {α : Type} (m : PyStr → Option α) : PyStr → Option α
  | [] => m []
  | c :: rest =>
    match m (c :: rest) with
    | some r => some r
    | none => searchPos m rest

/-- Match `Folge\s*(\d+)` at the current position, returning the digit
group.  `\s*` is greedy and whitespace is disjoint from digits, so the
match succeeds exactly when the maximal whitespace run after "Folge" is
followed by at least one digit. -/
def folgeAt (s : PyStr) : Option PyStr :=
  if "Folge".toList.isPrefixOf s then
    let ds := ((s.drop 5).dropWhile isPySpace).takeWhile isDigitChar
    if ds.isEmpty then none else some ds
  else none

/-- `re.search(r"Folge\s*(\d+)", s)`, returning the digit group. -/
def folgeSearch (s : PyStr) : Option PyStr := searchPos folgeAt s

/-- Match `tok` followed by `\s*(\d+)` at the current position. -/
def markerAt (tok : PyStr) (s : PyStr) : Option PyStr :=
  if tok.isPrefixOf s then
    let ds := ((s.drop tok.length).dropWhile isPySpace).takeWhile isDigitChar
    if ds.isEmpty then none else some ds
  else none

/-- Match `(Kapitel|Teil)\s*(\d+)` at the current position; the `Kapitel`
alternative is tried first (the two literals start with different letters,
so at most one can match at a given position anyway). -/
def kapitelTeilAt (s : PyStr) : Option PyStr :=
  match markerAt "Kapitel".toList s with
  | some ds => some ds
  | none => markerAt "Teil".toList s

/-- `extract_kapitel_or_teil_number` from the script:
`re.search(r"(Kapitel|Teil)\s*(\d+)", filename)`, the matched integer, or
0 when there is no match. -/
def extract_kapitel_or_teil_number (filename : PyStr) : ℕ :=
  match searchPos kapitelTeilAt filename with
  | some ds => natFromDigits ds
  | none => 0

/-- The character class `[a-zA-Z0-9\s]` of `extract_title`'s pattern. -/
def isTitleChar (c : Char) : Bool := c.isAlpha || c.isDigit || isPySpace c

/-- Python's `$` (without `MULTILINE`) matches at the end of the string or
just before one final newline; this drops that optional final newline. -/
def dropFinalNl (s : PyStr) : PyStr :=
  if s.getLast? = some '\n' then s.dropLast else s

/-- Remove `suf` from the end of `s` when it is a suffix. -/
def stripSuffix (suf s : PyStr) : Option PyStr :=
  if suf.isSuffixOf s then some (s.take (s.length - suf.length)) else none

/-- Try one extension alternative of group 2 of `extract_title`'s
pattern: succeed when the string ends with `ext` and what precedes it is
a nonempty run of class characters (that run being group 1). -/
def tryTitleExt (f ext : PyStr) : Option PyStr :=
  match stripSuffix ext f with
  | some r => if !r.isEmpty && r.all isTitleChar then some r else none
  | none => none

/-- `extract_title` from the script:
`re.match(r"([a-zA-Z0-9\s]+)(\d+|\.mp3|\.mp4|\.pdf)?$", filename)`,
returning group 1 on success and the whole filename on failure.

Group 1 is greedy and its class contains the digits, so the `\d+`
alternative of group 2 never takes effect: the regex matches exactly when
the filename (up to an optional final newline, because of `$`) is a
nonempty run of class characters optionally followed by one of the three
literal extensions, and group 1 is that run. -/
def extract_title (filename : PyStr) : PyStr :=
  if !filename.isEmpty && filename.all isTitleChar then filename
  else
    match tryTitleExt (dropFinalNl filename) ".mp3".toList with
    | some r => r
    | none =>
      match tryTitleExt (dropFinalNl filename) ".mp4".toList with
      | some r => r
      | none =>
        match tryTitleExt (dropFinalNl filename) ".pdf".toList with
        | some r => r
        | none => filename

/-- `SPECIAL_CHAR_MAP` from the script, in source (= dict-iteration)
order. -/
def SPECIAL_CHAR_MAP : List (Char × PyStr) :=
  [('ä', "ae".toList), ('ö', "oe".toList), ('ü', "ue".toList),
   ('ß', "ss".toList), ('Ä', "Ae".toList), ('Ö', "Oe".toList),
   ('Ü', "Ue".toList), ('é', "e".toList), ('è', "e".toList),
   ('ê', "e".toList), ('à', "a".toList), ('á', "a".toList),
   ('â', "a".toList), ('ç', "c".toList), ('ñ', "n".toList)]

/-- Python `text.replace(ch, repl)` for a single-character pattern. -/
def replaceChar (ch : Char) (repl : PyStr) (s : PyStr) : PyStr :=
  s.flatMap (fun c => if c = ch then repl else [c])

/-- `replace_special_characters` from the script: sequentially apply every
replacement of `SPECIAL_CHAR_MAP`. -/
def replace_special_characters (text : PyStr) : PyStr :=
  SPECIAL_CHAR_MAP.foldl (fun t p => replaceChar p.1 p.2 t) text

/-- Model of `re.sub(pat, "", s)` for a pattern that never matches the
empty string: scan left to right, delete the leftmost match (the matcher
returns the matched length) and continue after it, otherwise keep one
character. -/
def reSubDelF (m : PyStr → Option ℕ) : ℕ → PyStr → PyStr
  | _, [] => []
  | 0, s => s
  | fuel + 1, c :: rest =>
    match m (c :: rest) with
    | some n => reSubDelF m fuel (rest.drop (n - 1))
    | none => c :: reSubDelF m fuel rest

/-- `reSubDelF` driven with enough fuel: every step consumes at least one
character and one unit of fuel, so fuel `s.length` never runs out. -/
def reSubDel (m : PyStr → Option ℕ) (s : PyStr) : PyStr :=
  reSubDelF m s.length s

/-- Match `Folge\s*\d+` at the current position, returning the matched
length. -/
def folgeDelAt (s : PyStr) : Option ℕ :=
  if "Folge".toList.isPrefixOf s then
    let ws := (s.drop 5).takeWhile isPySpace
    let ds := ((s.drop 5).dropWhile isPySpace).takeWhile isDigitChar
    if ds.isEmpty then none else some (5 + ws.length + ds.length)
  else none

/-- Match `\s*<opn>.*?<cls>` at the current position (the parenthetical /
bracketed alternatives of the first `re.sub` in `clean_file_name`).
`.` does not match a newline, and `.*?` is lazy, so the body runs to the
first closer, which must occur before any newline. -/
def bracketDelAt (opn cls : Char) (s : PyStr) : Option ℕ :=
  let ws := s.takeWhile isPySpace
  match s.drop ws.length with
  | [] => none
  | c :: body =>
    if c = opn then
      let upto := body.takeWhile (fun d => d ≠ cls && d ≠ '\n')
      match body.drop upto.length with
      | d :: _ => if d = cls then some (ws.length + 1 + upto.length + 1) else none
      | [] => none
    else none

/-- Position matcher for `Folge\s*\d+|\s*\(.*?\)|\s*\[.*?\]`, alternatives
in pattern order. -/
def pat1At (s : PyStr) : Option ℕ :=
  match folgeDelAt s with
  | some n => some n
  | none =>
    match bracketDelAt '(' ')' s with
    | some n => some n
    | none => bracketDelAt '[' ']' s

/-- Match `tok` followed by `\s*\d+` at the current position, returning
the matched length. -/
def markerDelAt (tok : PyStr) (s : PyStr) : Option ℕ :=
  if tok.isPrefixOf s then
    let ws := (s.drop tok.length).takeWhile isPySpace
    let ds := ((s.drop tok.length).dropWhile isPySpace).takeWhile isDigitChar
    if ds.isEmpty then none else some (tok.length + ws.length + ds.length)
  else none

/-- Position matcher for `(Kapitel|Teil)\s*\d+`. -/
def pat2At (s : PyStr) : Option ℕ :=
  match markerDelAt "Kapitel".toList s with
  | some n => some n
  | none => markerDelAt "Teil".toList s

/-- Model of `re.sub(target+, repl, s)` for a single repeated character
(`-+` and `_+` in the script): each maximal run of `target` becomes one
`repl`. -/
def collapseRunsF (target repl : Char) : ℕ → PyStr → PyStr
  | _, [] => []
  | 0, s => s
  | fuel + 1, c :: rest =>
    if c = target then repl :: collapseRunsF target repl fuel (rest.dropWhile (· = target))
    else c :: collapseRunsF target repl fuel rest

/-- `collapseRunsF` driven with enough fuel (see `reSubDel`). -/
def collapseRuns (target repl : Char) (s : PyStr) : PyStr :=
  collapseRunsF target repl s.length s

/-- Python `s.strip(ch)`: remove the character from both ends. -/
def stripChar (ch : Char) (s : PyStr) : PyStr :=
  ((s.dropWhile (· = ch)).reverse.dropWhile (· = ch)).reverse

/-- Python `s.zfill(w)` on a digit string: left-pad with `'0'` to width
`w`; longer strings are returned unchanged (never truncated). -/
def zfill (w : ℕ) (s : PyStr) : PyStr := List.replicate (w - s.length) '0' ++ s

/-- The initial value of the script's global `folge_counter`. -/
def folge_counter_init : ℕ := 1

/-- The text-rewriting part of `clean_file_name`, applied to the filename
after the Folge number has been read off: remove `Folge\s*\d+` and
parenthesised/bracketed content, remove `(Kapitel|Teil)\s*\d+`, replace
spaces with underscores, transliterate, collapse `-` runs and `_` runs to
a single underscore, and strip leading/trailing underscores — in script
order. -/
def cleanedBody (filename : PyStr) : PyStr :=
  stripChar '_' (collapseRuns '_' '_' (collapseRuns '-' '_'
    (replace_special_characters
      ((reSubDel pat2At (reSubDel pat1At filename)).map
        (fun c => if c = ' ' then '_' else c)))))

/-- `clean_file_name` from the script.  The global `folge_counter` is
threaded explicitly: the function takes its current value and returns the
cleaned name together with its new value.  `str(folge_counter)` is
modelled by `Nat.toDigits 10`.  The match failure sentinel is the string
`"000"`, exactly as in the script (`folge_match.group(1) if folge_match
else "000"`), so a literal tag `Folge 000` is indistinguishable from an
absent tag. -/
def clean_file_name (filename : PyStr) (folge_counter : ℕ) : PyStr × ℕ :=
  let folge_number := (folgeSearch filename).getD "000".toList
  if folge_number = "000".toList
  then (zfill 3 (Nat.toDigits 10 folge_counter) ++ '_' :: cleanedBody filename,
        folge_counter + 1)
  else (zfill 3 folge_number ++ '_' :: cleanedBody filename, folge_counter)

/-- `os.path.basename` (POSIX): everything after the last `'/'`. -/
def basename (p : PyStr) : PyStr := (p.reverse.takeWhile (· ≠ '/')).reverse

/-- `os.path.join` (POSIX) for two components. -/
def joinPath (d f : PyStr) : PyStr :=
  match f with
  | '/' :: _ => f
  | _ =>
    if d.isEmpty then f
    else
      match d.reverse with
      | '/' :: _ => d ++ f
      | _ => d ++ '/' :: f

/-- The first component of `os.path.splitext` on a basename: split at the
last dot unless every character before it is a dot. -/
def splitextBase (p : PyStr) : PyStr :=
  if '.' ∈ p then
    let extLen := (p.reverse.takeWhile (· ≠ '.')).length
    let stem := p.take (p.length - extLen - 1)
    if stem.any (· ≠ '.') then stem else p
  else p

/-!
Embedding of `difflib.SequenceMatcher(None, a, b).ratio()`, the
implementation behind the script's `similar`.  `isjunk` is `None`, so the
junk set `bjunk` is empty; `autojunk` defaults to `True`.
-/

/-- Ascending list of the positions of `c` in `b` (one entry of the `b2j`
dictionary built by `__chain_b`). -/
def positionsOf (b : PyStr) (c : Char) : List ℕ :=
  (List.range b.length).filter (fun j => b.get? j = some c)

/-- `__chain_b` with `isjunk = None`, `autojunk = True`: positions of each
element of `b`, except that for `len(b) >= 200` the "popular" elements
(count strictly above `len(b) // 100 + 1`) are purged. -/
def b2j (b : PyStr) (c : Char) : List ℕ :=
  if 200 ≤ b.length ∧ b.length / 100 + 1 < (positionsOf b c).length then []
  else positionsOf b c

/-- The running `(besti, bestj, bestsize)` triple of
`find_longest_match`. -/
structure Match3 where
  besti : ℕ
  bestj : ℕ
  bestsize : ℕ
deriving DecidableEq, Repr

/-- Equality test on the two optional characters `a[i]` and `b[j]`; in the
script both accesses are always in bounds. -/
def charEqOpt : Option Char → Option Char → Bool
  | some x, some y => x == y
  | _, _ => false

/-- Inner loop of `find_longest_match` over `b2j.get(a[i], [])` (an
ascending position list): `j < blo` is skipped (`continue`), `j >= bhi`
stops the loop (`break`); otherwise
`k = newj2len[j] = j2len.get(j-1, 0) + 1` and the best triple is updated
when `k > bestsize`.  `j2len` maps absent keys to 0, so it is modelled as
a total function that is 0 by default; `j2len.get(j-1, 0)` at `j = 0`
looks up key `-1`, which is absent, hence the explicit guard. -/
def flmInner (i blo bhi : ℕ) (j2len : ℕ → ℕ) :
    List ℕ → (ℕ → ℕ) → Match3 → ((ℕ → ℕ) × Match3)
  | [], newj2len, st => (newj2len, st)
  | j :: js, newj2len, st =>
    if j < blo then flmInner i blo bhi j2len js newj2len st
    else if bhi ≤ j then (newj2len, st)
    else
      let k := (if j = 0 then 0 else j2len (j - 1)) + 1
      let newj2len' := Function.update newj2len j k
      let st' := if st.bestsize < k then ⟨i + 1 - k, j + 1 - k, k⟩ else st
      flmInner i blo bhi j2len js newj2len' st'

/-- Outer loop of `find_longest_match` over `i in range(alo, ahi)`; each
iteration starts a fresh `newj2len = {}` and installs it as `j2len` for
the next iteration. -/
def flmOuter (a : PyStr) (bj : Char → List ℕ) (blo bhi : ℕ) :
    List ℕ → (ℕ → ℕ) → Match3 → Match3
  | [], _, st => st
  | i :: is, j2len, st =>
    let js := match a.get? i with
      | some c => bj c
      | none => []
    let r := flmInner i blo bhi j2len js (fun _ => 0) st
    flmOuter a bj blo bhi is r.1 r.2

/-- First extension loop of `find_longest_match`: while
`besti > alo and bestj > blo and a[besti-1] == b[bestj-1]`, grow the match
downwards.  (`not isbjunk(...)` is omitted: with `isjunk = None` the junk
set is empty, so it is always true.)  Structural recursion on `besti`,
which decreases by exactly one per iteration. -/
def extendLower (a b : PyStr) (alo blo : ℕ) : ℕ → ℕ → ℕ → Match3
  | 0, bestj, bestsize => ⟨0, bestj, bestsize⟩
  | besti + 1, bestj, bestsize =>
    if alo < besti + 1 ∧ blo < bestj ∧
        charEqOpt (a.get? besti) (b.get? (bestj - 1)) then
      extendLower a b alo blo besti (bestj - 1) (bestsize + 1)
    else ⟨besti + 1, bestj, bestsize⟩

/-- Second extension loop: while
`besti+bestsize < ahi and bestj+bestsize < bhi and a[besti+bestsize] ==
b[bestj+bestsize]`, grow the match upwards.  The fuel
`ahi - (besti + bestsize)` decreases in lockstep with the loop guard, so
it never runs out before the guard fails. -/
def extendUpperF (a b : PyStr) (ahi bhi besti bestj : ℕ) : ℕ → ℕ → ℕ
  | 0, bestsize => bestsize
  | fuel + 1, bestsize =>
    if besti + bestsize < ahi ∧ bestj + bestsize < bhi ∧
        charEqOpt (a.get? (besti + bestsize)) (b.get? (bestj + bestsize)) then
      extendUpperF a b ahi bhi besti bestj fuel (bestsize + 1)
    else bestsize

/-- The post-main-loop stage of `find_longest_match`: apply the two
extension loops to the best triple found by the main loop. -/
def flmFinish (a b : PyStr) (alo ahi blo bhi : ℕ) (st : Match3) : Match3 :=
  ⟨(extendLower a b alo blo st.besti st.bestj st.bestsize).besti,
   (extendLower a b alo blo st.besti st.bestj st.bestsize).bestj,
   extendUpperF a b ahi bhi
     (extendLower a b alo blo st.besti st.bestj st.bestsize).besti
     (extendLower a b alo blo st.besti st.bestj st.bestsize).bestj
     (ahi - ((extendLower a b alo blo st.besti st.bestj st.bestsize).besti
       + (extendLower a b alo blo st.besti st.bestj st.bestsize).bestsize))
     (extendLower a b alo blo st.besti st.bestj st.bestsize).bestsize⟩

/-- `find_longest_match(alo, ahi, blo, bhi)` with `isjunk = None`: main
loop, then the two non-junk extension loops.  The two final junk-extension
loops of difflib are omitted: their guards require `isbjunk(...)` to be
true, which never holds for the empty junk set. -/
def find_longest_match (a b : PyStr) (bj : Char → List ℕ)
    (alo ahi blo bhi : ℕ) : Match3 :=
  flmFinish a b alo ahi blo bhi
    (flmOuter a bj blo bhi (List.range' alo (ahi - alo)) (fun _ => 0) ⟨alo, blo, 0⟩)

/-- Total size of the matching blocks of the region `(alo, ahi, blo, bhi)`:
the recursion of `get_matching_blocks` (queue order and the final sort and
adjacent-block merge do not change the sum of the block sizes, which is
all `ratio()` uses).  The recursion depth is bounded by the region size,
so fuel `len(a) + len(b) + 1` at the top level never runs out. -/
def matchTotalF (a b : PyStr) (bj : Char → List ℕ) :
    ℕ → ℕ → ℕ → ℕ → ℕ → ℕ
  | 0, _, _, _, _ => 0
  | fuel + 1, alo, ahi, blo, bhi =>
    let m := find_longest_match a b bj alo ahi blo bhi
    if m.bestsize = 0 then 0
    else
      (if alo < m.besti ∧ blo < m.bestj
       then matchTotalF a b bj fuel alo m.besti blo m.bestj else 0)
      + m.bestsize
      + (if m.besti + m.bestsize < ahi ∧ m.bestj + m.bestsize < bhi
         then matchTotalF a b bj fuel (m.besti + m.bestsize) ahi (m.bestj + m.bestsize) bhi
         else 0)

/-- `SequenceMatcher(None, a, b).ratio()` as an exact rational:
`2 * matches / (len(a) + len(b))`, and 1 when both strings are empty
(`_calculate_ratio`). -/
def ratioQ (a b : PyStr) : ℚ :=
  let total := a.length + b.length
  if total = 0 then 1
  else
    let ms := matchTotalF a b (b2j b) (total + 1) 0 a.length 0 b.length
    mkRat (2 * ms) total

/-- `similar` from the script. -/
def similar (a b : PyStr) : ℚ := ratioQ a b

/-- The default `similarity_threshold = 0.9` of
`group_files_by_similarity`; `merge_files_in_directory` calls it with this
default.  (`mkRat 9 10` is the exact rational 9/10; the float comparison
`ratio > 0.9` agrees with the exact one on all ratios whose float image is
not the double nearest to 0.9, in particular on every ratio equal to
9/10 exactly.) -/
def similarity_threshold : ℚ := mkRat 9 10

/-- `groups[key].append(path)` for `groups = defaultdict(list)`: append to
the entry with this key, or create it at the end (Python dicts preserve
insertion order). -/
def addToGroup (gs : List (PyStr × List PyStr)) (key : PyStr) (path : PyStr) :
    List (PyStr × List PyStr) :=
  match gs with
  | [] => [(key, [path])]
  | (k, fs) :: rest =>
    if k = key then (k, fs ++ [path]) :: rest
    else (k, fs) :: addToGroup rest key path

/-- The inner loop of `group_files_by_similarity`: the first existing
group key (in creation order) whose similarity with `title` strictly
exceeds the threshold. -/
def findGroupKey (title : PyStr) : List PyStr → Option PyStr
  | [] => none
  | k :: rest =>
    if similarity_threshold < similar title k then some k
    else findGroupKey title rest

/-- One iteration of the loop body of `group_files_by_similarity` for a
single directory entry. -/
def groupStep (directory : PyStr) (groups : List (PyStr × List PyStr))
    (filename : PyStr) : List (PyStr × List PyStr) :=
  if ".mp3".toList.isSuffixOf filename then
    match findGroupKey (extract_title filename) (groups.map Prod.fst) with
    | some k => addToGroup groups k (joinPath directory filename)
    | none => addToGroup groups (extract_title filename) (joinPath directory filename)
  else groups

/-- `group_files_by_similarity` from the script, with the directory
listing (`os.listdir`) passed in listing order.  Groups are an association
list in key-insertion order, mirroring `defaultdict(list)`. -/
def group_files_by_similarity (directory : PyStr) (listing : List PyStr) :
    List (PyStr × List PyStr) :=
  listing.foldl (groupStep directory) []

/-- `files_with_kapitel_or_teil` of the script: each file paired with the
ordinal extracted from its basename. -/
def files_with_kapitel_or_teil (files : List PyStr) : List (ℕ × PyStr) :=
  files.map (fun f => (extract_kapitel_or_teil_number (basename f), f))

/-- The dedup loop of `merge_files_in_directory`: `seen` starts empty and
the first pair with each ordinal is kept. -/
def dedupLoop : List (ℕ × PyStr) → List ℕ → List (ℕ × PyStr)
  | [], _ => []
  | p :: rest, seen =>
    if p.1 ∈ seen then dedupLoop rest seen
    else p :: dedupLoop rest (p.1 :: seen)

/-- `unique_files` as computed by the script from
`files_with_kapitel_or_teil`. -/
def dedupByOrdinal (l : List (ℕ × PyStr)) : List (ℕ × PyStr) :=
  dedupLoop l []

/-- `unique_files.sort()`: Python sorts the `(number, file)` tuples
lexicographically; after dedup the numbers are pairwise distinct, so the
result is determined by the number alone and equals any stable sort by the
first component. -/
def sortByOrdinal (l : List (ℕ × PyStr)) : List (ℕ × PyStr) :=
  List.insertionSort (fun p q => p.1 ≤ q.1) l

/-- `gap_detected` of the script: some adjacent pair of the sorted ordinal
list violates `nums[i] = nums[i-1] + 1`. -/
def gapDetected : List ℕ → Bool
  | x :: y :: rest => (y != x + 1) || gapDetected (y :: rest)
  | _ => false

/-- The validation part of the per-group loop body of
`merge_files_in_directory`: dedup by ordinal, sort, then the start-at-1,
length and gap checks, in script order.  Returns the sorted unique pairs
on success.  On an empty group the script would raise `IndexError` at
`kapitel_or_teil_numbers[0]`; that case is unreachable (every group is
nonempty, see `group_nonempty`) and is modelled as a rejection. -/
def validateGroup (pairs : List (ℕ × PyStr)) : Option (List (ℕ × PyStr)) :=
  match (sortByOrdinal (dedupByOrdinal pairs)).map Prod.fst with
  | [] => none
  | n0 :: _ =>
    if n0 ≠ 1 then none
    else if ((sortByOrdinal (dedupByOrdinal pairs)).map Prod.fst).length ≤ 1 then none
    else if gapDetected ((sortByOrdinal (dedupByOrdinal pairs)).map Prod.fst) then none
    else some (sortByOrdinal (dedupByOrdinal pairs))

/-- The full per-group loop body of `merge_files_in_directory`: on
successful validation, clean the first sorted file's base name (threading
the global counter) and return the merge invocation
(`sorted file list, output path`) that is passed to `merge_mp3_files`. -/
def processGroup (directory : PyStr) (files : List PyStr) (folge_counter : ℕ) :
    Option (List PyStr × PyStr) × ℕ :=
  match validateGroup (files_with_kapitel_or_teil files) with
  | none => (none, folge_counter)
  | some sorted =>
    match sorted with
    | [] => (none, folge_counter)
    | first :: _ =>
      let base := splitextBase (basename first.2)
      let cc := clean_file_name base folge_counter
      let output := joinPath directory (cc.1 ++ ".mp3".toList)
      (some (sorted.map Prod.snd, output), cc.2)

/-- `merge_files_in_directory` from the script, with the directory listing
passed explicitly and the audio collaborator abstracted: returns the list
of merge invocations in group order together with the final counter. -/
def merge_files_in_directory (directory : PyStr) (listing : List PyStr) :
    List (List PyStr × PyStr) × ℕ :=
  (group_files_by_similarity directory listing).foldl
    (fun acc g =>
      let r := processGroup directory g.2 acc.2
      match r.1 with
      | some inv => (acc.1 ++ [inv], r.2)
      | none => (acc.1, r.2))
    ([], folge_counter_init)

/-!
Specification-side definitions, written from the wording of the claims so
that the code-side definitions above can be proved equivalent to them.
-/

/-- Append `path` to the first group, in group-creation order, whose
representative title has similarity with `title` strictly exceeding the
threshold; if there is none, create a new group keyed by `title` at the
end. -/
def specInsert (title path : PyStr) : List (PyStr × List PyStr) → List (PyStr × List PyStr)
  | [] => [(title, [path])]
  | g :: rest =>
    if similarity_threshold < similar title g.1 then (g.1, g.2 ++ [path]) :: rest
    else g :: specInsert title path rest

/-- One grouping step as the claim words it: consider the file only if it
has the audio extension, then insert it by first-match similarity. -/
def specGroupStep (directory : PyStr) (groups : List (PyStr × List PyStr))
    (filename : PyStr) : List (PyStr × List PyStr) :=
  if ".mp3".toList.isSuffixOf filename then
    specInsert (extract_title filename) (joinPath directory filename) groups
  else groups

/-- Grouping as the claim words it, processing files in listing order. -/
def specGroup (directory : PyStr) (listing : List PyStr) :
    List (PyStr × List PyStr) :=
  listing.foldl (specGroupStep directory) []

/-!
Proof-scaffolding definitions for the analysis of `find_longest_match` on
a pair of identical strings.
-/

/-- The position list `b2j.get(a[i], [])` consulted by iteration `i` of
`find_longest_match`'s main loop when `b = a`. -/
def jsOf (a : PyStr) (i : ℕ) : List ℕ :=
  match a.get? i with
  | some c => b2j a c
  | none => []

/-- The value `newj2len[j]` computed at outer iteration `i`, inner
position `j`, of the main loop on the pair `(a, a)`: the length of the
longest chain of `b2j`-visible matches ending at `(i, j)`. -/
def rlen (a : PyStr) : ℕ → ℕ → ℕ
  | 0, j => if j ∈ jsOf a 0 then 1 else 0
  | i + 1, 0 => if 0 ∈ jsOf a (i + 1) then 1 else 0
  | i + 1, j + 1 => if j + 1 ∈ jsOf a (i + 1) then rlen a i j + 1 else 0

/-- The diagonal chain length `rlen a i i`, in directly recursive form. -/
def diagRun (a : PyStr) : ℕ → ℕ
  | 0 => if 0 ∈ jsOf a 0 then 1 else 0
  | i + 1 => if i + 1 ∈ jsOf a (i + 1) then diagRun a i + 1 else 0

/-- The `j2len` function carried into outer iteration `i` of the main
loop on the pair `(a, a)`. -/
def prevFun (a : PyStr) : ℕ → ℕ → ℕ
  | 0 => fun _ => 0
  | i + 1 => rlen a i

/-- The loop invariant of the main loop of `find_longest_match` on the
pair `(a, a)` after the first `ub` outer iterations: the best triple sits
on the diagonal, stays inside the string, and its size dominates every
diagonal chain seen so far. -/
def StInv (a : PyStr) (ub : ℕ) (st : Match3) : Prop :=
  st.besti = st.bestj ∧ st.besti + st.bestsize ≤ a.length ∧
  ∀ i' < ub, diagRun a i' ≤ st.bestsize

/-!
Theorems.  Helper lemmas come first, then one theorem per claim (with its
counterexample and witness theorems where applicable).
-/

/-- Behaviour of `clean_file_name` when an explicit non-sentinel tag is
present: the tag is zero-padded and the counter is unchanged. -/
theorem clean_file_name_tag (f : PyStr) (c : ℕ) (ds : PyStr)
    (h1 : folgeSearch f = some ds) (h2 : ds ≠ "000".toList) :
    clean_file_name f c = (zfill 3 ds ++ '_' :: cleanedBody f, c) := by
  unfold clean_file_name
  rw [h1]
  simp only [Option.getD_some]
  rw [if_neg h2]

/-- Behaviour of `clean_file_name` on the fallback path (tag absent, or
its digit string is the sentinel "000"): the counter value becomes the
tag and the counter is incremented. -/
theorem clean_file_name_fallback (f : PyStr) (c : ℕ)
    (h : folgeSearch f = none ∨ folgeSearch f = some "000".toList) :
    clean_file_name f c
      = (zfill 3 (Nat.toDigits 10 c) ++ '_' :: cleanedBody f, c + 1) := by
  unfold clean_file_name
  rcases h with h | h <;> rw [h] <;> simp

/-- The counter is incremented exactly on the fallback path. -/
theorem clean_counter_iff (f : PyStr) (c : ℕ) :
    (clean_file_name f c).2 = c + 1 ↔
      (folgeSearch f = none ∨ folgeSearch f = some "000".toList) := by
  constructor
  · intro h
    by_contra hn
    push_neg at hn
    rcases he : folgeSearch f with _ | ds
    · exact hn.1 he
    · have hne : ds ≠ "000".toList := fun hd => hn.2 (hd ▸ he)
      rw [clean_file_name_tag f c ds he hne] at h
      exact absurd h (by omega)
  · exact fun h => by rw [clean_file_name_fallback f c h]

/-- A successful position match of `Folge\s*(\d+)` starts with the
literal "Folge". -/
theorem folgeAt_some_imp (s : PyStr) (h : folgeAt s ≠ none) :
    "Folge".toList <+: s := by
  by_cases hp : ("Folge".toList.isPrefixOf s) = true
  · exact List.isPrefixOf_iff_prefix.mp hp
  · exfalso
    apply h
    unfold folgeAt
    rw [if_neg hp]

/-- A successful `re.search` for the Folge pattern implies the substring
"Folge" occurs in the filename. -/
theorem folgeSearch_some_contains (f : PyStr) (h : folgeSearch f ≠ none) :
    "Folge".toList <:+: f := by
  induction f with
  | nil => exact absurd (by simp [folgeSearch, searchPos, folgeAt]) h
  | cons a rest ih =>
    unfold folgeSearch searchPos at h
    cases hm : folgeAt (a :: rest) with
    | some ds => exact (folgeAt_some_imp _ (by simp [hm])).isInfix
    | none =>
      rw [hm] at h
      exact (ih (by simpa [folgeSearch] using h)).trans
        (List.suffix_cons a rest).isInfix

/-- Claim C2 (counterexample): the filename "A Folge 000" carries an
explicit `Folge <number>` tag, yet the counter-fallback path is taken
(the counter is incremented), refuting "the counter-fallback path is
taken if and only if the filename has no explicit Folge tag". -/
theorem claim_C2_counterexample :
    ¬ (((clean_file_name "A Folge 000".toList 1).2 = 1 + 1) ↔
        folgeSearch "A Folge 000".toList = none) := by decide

/-- Claim C2 (amended): for every filename containing no "Folge" token,
episode-tag extraction reports no match (absence, never a value), and the
Name Synthesizer's counter-fallback path is taken if and only if the
filename has no explicit `Folge <number>` tag or its tag's digit string
is literally "000" — the in-band sentinel, which makes a tag written
"000" indistinguishable from absence (tags written "0" or "00" remain
distinguishable). -/
theorem claim_C2_amended :
    (∀ f : PyStr, ¬ ("Folge".toList <:+: f) → folgeSearch f = none) ∧
    (∀ (f : PyStr) (c : ℕ),
      (clean_file_name f c).2 = c + 1 ↔
        (folgeSearch f = none ∨ folgeSearch f = some "000".toList)) := by
  refine ⟨fun f hnf => ?_, clean_counter_iff⟩
  by_contra h
  exact hnf (folgeSearch_some_contains f h)

/-- Witness for the amended C2 theorem at concrete inputs. -/
theorem claim_C2_witness :
    folgeSearch "Mystery Kapitel 2".toList = none ∧
    ((clean_file_name "X Folge 7".toList 4).2 = 4 + 1 ↔
      (folgeSearch "X Folge 7".toList = none ∨
        folgeSearch "X Folge 7".toList = some "000".toList)) :=
  ⟨claim_C2_amended.1 "Mystery Kapitel 2".toList (by decide),
   claim_C2_amended.2 "X Folge 7".toList 4⟩

/-- Claim C7 (counterexample): for the base name "B Folge 000" an
explicit episode tag is present, yet the counter is not left unchanged —
`clean_file_name` increments it. -/
theorem claim_C7_counterexample :
    (folgeSearch "B Folge 000".toList).isSome = true ∧
    (clean_file_name "B Folge 000".toList 3).2 ≠ 3 := by decide

/-- Claim C7 (amended): the process-wide counter starts at 1; it is
incremented by exactly 1 each time the Name Synthesizer processes a base
name whose episode tag is absent or whose tag digit string is "000" (the
counter value, zero-padded to 3 digits, becoming the tag); for any other
explicit tag the counter is left unchanged and the tag is zero-padded to
3 digits, digit strings of length at least 3 (in particular values
≥ 1000) being left at natural width, never truncated. -/
theorem claim_C7_amended :
    folge_counter_init = 1 ∧
    (∀ (f : PyStr) (c : ℕ),
      folgeSearch f = none ∨ folgeSearch f = some "000".toList →
      clean_file_name f c
        = (zfill 3 (Nat.toDigits 10 c) ++ '_' :: cleanedBody f, c + 1)) ∧
    (∀ (f : PyStr) (c : ℕ) (ds : PyStr),
      folgeSearch f = some ds → ds ≠ "000".toList →
      clean_file_name f c = (zfill 3 ds ++ '_' :: cleanedBody f, c)) ∧
    (∀ ds : PyStr, 3 ≤ ds.length → zfill 3 ds = ds) := by
  refine ⟨rfl, clean_file_name_fallback, clean_file_name_tag, fun ds h => ?_⟩
  unfold zfill
  rw [Nat.sub_eq_zero_of_le h]
  rfl

/-- Witness for the amended C7 theorem at concrete inputs: a four-digit
tag is not truncated and leaves the counter unchanged. -/
theorem claim_C7_witness :
    clean_file_name "X Folge 1234".toList 9
      = (zfill 3 "1234".toList ++ '_' :: cleanedBody "X Folge 1234".toList, 9) :=
  claim_C7_amended.2.2.1 "X Folge 1234".toList 9 "1234".toList (by decide) (by decide)

/-- A successful extension alternative of `extract_title` implies its
characterisation. -/
theorem tryTitleExt_imp (f ext r : PyStr) (h : tryTitleExt f ext = some r) :
    f = r ++ ext ∧ r ≠ [] ∧ r.all isTitleChar = true := by
  unfold tryTitleExt stripSuffix at h
  by_cases hs : ext.isSuffixOf f = true
  · rw [if_pos hs] at h
    rcases List.isSuffixOf_iff_suffix.mp hs with ⟨t, ht⟩
    have hlen : f.length - ext.length = t.length := by
      rw [← ht, List.length_append]; omega
    have htake : f.take (f.length - ext.length) = t := by
      rw [hlen, ← ht, List.take_left]
    rw [htake] at h
    simp only at h
    by_cases hc : (!t.isEmpty && t.all isTitleChar) = true
    · rw [if_pos hc] at h
      cases h
      simp only [Bool.and_eq_true, Bool.not_eq_true'] at hc
      exact ⟨ht.symm, by simpa [List.isEmpty_iff] using hc.1, hc.2⟩
    · rw [if_neg hc] at h
      exact absurd h (by simp)
  · rw [if_neg hs] at h
    exact absurd h (by simp)

/-- The converse: a string of the shape `r ++ ext` with a valid group-1
run `r` makes the extension alternative succeed. -/
theorem tryTitleExt_some_of (r ext : PyStr) (h1 : r ≠ [])
    (h2 : r.all isTitleChar = true) : tryTitleExt (r ++ ext) ext = some r := by
  unfold tryTitleExt stripSuffix
  have hs : ext.isSuffixOf (r ++ ext) = true :=
    List.isSuffixOf_iff_suffix.mpr ⟨r, rfl⟩
  rw [if_pos hs]
  have htake : (r ++ ext).take ((r ++ ext).length - ext.length) = r := by
    have : (r ++ ext).length - ext.length = r.length := by
      rw [List.length_append]; omega
    rw [this, List.take_left]
  rw [htake]
  simp only
  rw [if_pos (by simp [List.isEmpty_iff, h1, h2])]

/-- The extension alternative fails when the string ends with a different
same-length extension. -/
theorem tryTitleExt_none_of_ne (r ext e2 : PyStr)
    (hlen : ext.length = e2.length) (hne : ext ≠ e2) :
    tryTitleExt (r ++ e2) ext = none := by
  unfold tryTitleExt stripSuffix
  rw [if_neg]
  intro hs
  rcases List.isSuffixOf_iff_suffix.mp hs with ⟨t, ht⟩
  exact hne (List.append_inj_right' ht (by omega))

/-- The whole-string branch of `extract_title`. -/
theorem extract_title_all (f : PyStr) (h1 : f ≠ [])
    (h2 : f.all isTitleChar = true) : extract_title f = f := by
  unfold extract_title
  rw [if_pos (by simp [List.isEmpty_iff, h1, h2])]

/-- A string ending in one of the three extensions is left unchanged by
`dropFinalNl`. -/
theorem dropFinalNl_append_ext (r ext : PyStr) (hne : ext ≠ [])
    (hl : ext.getLast? ≠ some '\n') : dropFinalNl (r ++ ext) = r ++ ext := by
  unfold dropFinalNl
  rw [if_neg]
  rw [List.getLast?_append]
  cases hg : ext.getLast? with
  | none => exact absurd (List.getLast?_eq_none_iff.mp hg) hne
  | some c =>
    simp only [Option.or_some]
    intro hch
    exact hl (hg.trans hch)

/-- Claim C3 (counterexample): for the filename "Mystery 12" the claim
predicts the leading run up to and excluding the first digit run, i.e.
"Mystery "; but digits belong to the character class of group 1, so
`extract_title` returns the whole filename "Mystery 12" instead. -/
theorem claim_C3_counterexample :
    extract_title "Mystery 12".toList = "Mystery 12".toList ∧
    extract_title "Mystery 12".toList ≠ "Mystery ".toList := by decide

/-- Claim C3 (amended): `extract_title` returns group 1 of the anchored
pattern `([a-zA-Z0-9\s]+)(\d+|\.mp3|\.mp4|\.pdf)?$`.  Since group 1 is
greedy and contains the digits, digit runs are never excluded: the
function returns the whole filename when it is a nonempty run of
alphanumeric-and-space characters, the part before the extension when the
filename (up to an optional final newline) is such a run followed by
`.mp3`/`.mp4`/`.pdf`, and — whenever the pattern does not match — the
whole filename unchanged. -/
theorem claim_C3_amended :
    (∀ f : PyStr, f ≠ [] → f.all isTitleChar = true → extract_title f = f) ∧
    (∀ r ext : PyStr, ext ∈ [".mp3".toList, ".mp4".toList, ".pdf".toList] →
      r ≠ [] → r.all isTitleChar = true → extract_title (r ++ ext) = r) ∧
    (∀ f : PyStr, extract_title f = f ∨
      ∃ ext ∈ [".mp3".toList, ".mp4".toList, ".pdf".toList],
        extract_title f ≠ [] ∧ (extract_title f).all isTitleChar = true ∧
        dropFinalNl f = extract_title f ++ ext) := by
  refine ⟨extract_title_all, ?_, ?_⟩
  · intro r ext hext h1 h2
    simp only [List.mem_cons, List.mem_singleton, List.not_mem_nil, or_false] at hext
    have hall : (r ++ ext).all isTitleChar = false := by
      rcases hext with h | h | h <;> subst h <;>
        · rw [List.all_append]
          simp [isTitleChar, isPySpace]
    unfold extract_title
    rw [if_neg (by simp [hall])]
    rcases hext with h | h | h <;> subst h
    · rw [dropFinalNl_append_ext r _ (by simp) (by decide),
        tryTitleExt_some_of r _ h1 h2]
    · rw [dropFinalNl_append_ext r _ (by simp) (by decide),
        tryTitleExt_none_of_ne r _ _ (by decide) (by decide),
        tryTitleExt_some_of r _ h1 h2]
    · rw [dropFinalNl_append_ext r _ (by simp) (by decide),
        tryTitleExt_none_of_ne r _ _ (by decide) (by decide),
        tryTitleExt_none_of_ne r _ _ (by decide) (by decide),
        tryTitleExt_some_of r _ h1 h2]
  · intro f
    unfold extract_title
    by_cases hc : (!f.isEmpty && f.all isTitleChar) = true
    · rw [if_pos hc]; exact Or.inl rfl
    · rw [if_neg hc]
      cases h3 : tryTitleExt (dropFinalNl f) ".mp3".toList with
      | some r =>
        rcases tryTitleExt_imp _ _ _ h3 with ⟨he, hr1, hr2⟩
        exact Or.inr ⟨".mp3".toList, by simp, hr1, hr2, he⟩
      | none =>
        cases h4 : tryTitleExt (dropFinalNl f) ".mp4".toList with
        | some r =>
          rcases tryTitleExt_imp _ _ _ h4 with ⟨he, hr1, hr2⟩
          exact Or.inr ⟨".mp4".toList, by simp, hr1, hr2, he⟩
        | none =>
          cases h5 : tryTitleExt (dropFinalNl f) ".pdf".toList with
          | some r =>
            rcases tryTitleExt_imp _ _ _ h5 with ⟨he, hr1, hr2⟩
            exact Or.inr ⟨".pdf".toList, by simp, hr1, hr2, he⟩
          | none => exact Or.inl rfl

/-- Witness for the amended C3 theorem at concrete inputs. -/
theorem claim_C3_witness :
    extract_title "Story 3".toList = "Story 3".toList ∧
    extract_title ("Story 44".toList ++ ".mp4".toList) = "Story 44".toList :=
  ⟨claim_C3_amended.1 "Story 3".toList (by decide) (by decide),
   claim_C3_amended.2.1 "Story 44".toList ".mp4".toList (by decide)
     (by decide) (by decide)⟩

/-- Claim C8: for the base name "Mystery Folge 007 Kapitel 1
(remastered)", name synthesis returns exactly "007_Mystery" — the
parenthetical, the Folge tag token and the Kapitel ordinal marker are
stripped, spaces become underscores, underscore runs are collapsed,
leading/trailing underscores are stripped, and the 3-digit tag plus an
underscore is prepended — and this holds in every counter state (the
explicit tag "007" leaves the counter untouched). -/
theorem claim_C8 (c : ℕ) :
    clean_file_name "Mystery Folge 007 Kapitel 1 (remastered)".toList c
      = ("007_Mystery".toList, c) := by
  rw [clean_file_name_tag _ c "007".toList (by decide) (by decide)]
  simp only [Prod.mk.injEq]
  exact ⟨by decide, trivial⟩

/-- Unfolding equation for the gap check on a two-element head. -/
theorem gapDetected_cons_cons (x y : ℕ) (rest : List ℕ) :
    gapDetected (x :: y :: rest) = ((y != x + 1) || gapDetected (y :: rest)) :=
  rfl

/-- The gap check of the script is exactly the successor-chain property
of the sorted ordinal list. -/
theorem gapDetected_eq_false_iff :
    ∀ l : List ℕ, gapDetected l = false ↔ l.Chain' (fun x y => y = x + 1)
  | [] => by simp [gapDetected, List.chain'_nil]
  | [x] => by simp [gapDetected, List.chain'_singleton]
  | x :: y :: rest => by
    rw [List.chain'_cons, gapDetected_cons_cons]
    simp only [Bool.or_eq_false_iff, bne_eq_false_iff_eq]
    exact and_congr_right fun _ => gapDetected_eq_false_iff (y :: rest)

/-- A successor chain starting at `n` is an interval. -/
theorem chain_head_eq_range' (l : List ℕ) :
    ∀ n : ℕ, l.Chain' (fun x y => y = x + 1) →
      l.head? = some n → l = List.range' n l.length := by
  induction l with
  | nil => intro n _ hh; simp at hh
  | cons x rest ih =>
    intro n hc hh
    simp only [List.head?_cons, Option.some.injEq] at hh
    subst hh
    cases rest with
    | nil => rfl
    | cons y rest' =>
      rcases List.chain'_cons.mp hc with ⟨hxy, hc'⟩
      have ih' := ih (x + 1) hc' (by simp [hxy])
      rw [List.length_cons, List.range'_succ]
      exact congrArg (x :: ·) ih'

/-- An interval is a successor chain. -/
theorem range'_chain' (s : ℕ) :
    ∀ k : ℕ, (List.range' s k).Chain' (fun x y => y = x + 1) := by
  intro k
  induction k generalizing s with
  | zero => exact List.chain'_nil
  | succ k ih =>
    rw [List.range'_succ]
    cases k with
    | zero => exact List.chain'_singleton s
    | succ m =>
      rw [List.range'_succ]
      exact List.chain'_cons.mpr ⟨rfl, by rw [← List.range'_succ]; exact ih (s + 1)⟩

/-- The script's three checks accept exactly the lists whose sorted
distinct ordinals form an interval `1..k` with `k ≥ 2`. -/
theorem validateGroup_isSome_iff (pairs : List (ℕ × PyStr)) :
    (validateGroup pairs).isSome = true ↔
      ∃ k, 2 ≤ k ∧
        (sortByOrdinal (dedupByOrdinal pairs)).map Prod.fst = List.range' 1 k := by
  unfold validateGroup
  cases hn : (sortByOrdinal (dedupByOrdinal pairs)).map Prod.fst with
  | nil =>
    simp only [hn]
    constructor
    · intro h; exact absurd h (by simp)
    · rintro ⟨k, hk, he⟩
      have := congrArg List.length he
      simp at this
      omega
  | cons n0 rest =>
    simp only [hn]
    constructor
    · intro hS
      by_cases h1 : n0 ≠ 1
      · rw [if_pos h1] at hS; exact absurd hS (by simp)
      rw [if_neg h1] at hS
      push_neg at h1
      by_cases h2 : (n0 :: rest).length ≤ 1
      · rw [if_pos (by simpa using h2)] at hS; exact absurd hS (by simp)
      rw [if_neg (by simpa using h2)] at hS
      by_cases h3 : gapDetected (n0 :: rest) = true
      · rw [if_pos h3] at hS; exact absurd hS (by simp)
      rw [if_neg h3] at hS
      refine ⟨(n0 :: rest).length, by simpa using Nat.lt_of_not_le h2, ?_⟩
      exact chain_head_eq_range' _ 1
        ((gapDetected_eq_false_iff _).mp (Bool.not_eq_true _ ▸ h3))
        (by simp [h1])
    · rintro ⟨k, hk, he⟩
      have hlen : (n0 :: rest).length = k := by
        have := congrArg List.length he; simpa using this
      have hh : n0 = 1 := by
        cases k with
        | zero => omega
        | succ m =>
          rw [List.range'_succ] at he
          exact (List.cons.injEq _ _ _ _ ▸ he).1
      have hgap : gapDetected (n0 :: rest) = false :=
        (gapDetected_eq_false_iff _).mpr (he ▸ range'_chain' 1 k)
      rw [if_neg (by simp [hh]), if_neg (by omega), if_neg (by simp [hgap])]
      simp

/-- Claim C1: for every (nonempty) group of files, the Sequence Validator
deduplicates the ordinals and accepts exactly when the sorted distinct
ordinals start at 1, number at least 2, and are contiguous.  The four
concrete examples of the spec behave as claimed: ordinals `[1,2,2,3]` are
accepted as `[1,2,3]`, while `[2,3,4]`, `[1]` and `[1,2,4]` are each
rejected (so no merge happens for those groups). -/
theorem claim_C1 :
    (∀ pairs : List (ℕ × PyStr), pairs ≠ [] →
      ((validateGroup pairs).isSome = true ↔
        ∃ k, 2 ≤ k ∧
          (sortByOrdinal (dedupByOrdinal pairs)).map Prod.fst
            = List.range' 1 k)) ∧
    (sortByOrdinal (dedupByOrdinal
        [(1, "a".toList), (2, "b".toList), (2, "c".toList), (3, "d".toList)])).map Prod.fst
      = [1, 2, 3] ∧
    (validateGroup
        [(1, "a".toList), (2, "b".toList), (2, "c".toList), (3, "d".toList)]).isSome
      = true ∧
    validateGroup [(2, "a".toList), (3, "b".toList), (4, "c".toList)] = none ∧
    validateGroup [(1, "a".toList)] = none ∧
    validateGroup [(1, "a".toList), (2, "b".toList), (4, "c".toList)] = none := by
  exact ⟨fun pairs _ => validateGroup_isSome_iff pairs,
    by decide, by decide, by decide, by decide, by decide⟩

/-- Witness for C1's universal part at a concrete group. -/
theorem claim_C1_witness :
    (validateGroup [(1, "x".toList), (2, "y".toList)]).isSome = true ↔
      ∃ k, 2 ≤ k ∧
        (sortByOrdinal (dedupByOrdinal [(1, "x".toList), (2, "y".toList)])).map Prod.fst
          = List.range' 1 k :=
  claim_C1.1 [(1, "x".toList), (2, "y".toList)] (by decide)

/-- The seen-set dedup loop yields a sublist of its input (it preserves
input order). -/
theorem dedupLoop_sublist :
    ∀ (l : List (ℕ × PyStr)) (seen : List ℕ), List.Sublist (dedupLoop l seen) l
  | [], _ => List.Sublist.refl []
  | p :: rest, seen => by
    unfold dedupLoop
    by_cases hm : p.1 ∈ seen
    · rw [if_pos hm]
      exact (dedupLoop_sublist rest seen).cons p
    · rw [if_neg hm]
      exact (dedupLoop_sublist rest (p.1 :: seen)).cons₂ p

/-- For each ordinal value, the dedup loop keeps exactly the first
occurrence among pairs whose ordinal is not yet seen. -/
theorem dedupLoop_filter :
    ∀ (l : List (ℕ × PyStr)) (seen : List ℕ) (x : ℕ),
      (x ∈ seen → (dedupLoop l seen).filter (fun p => p.1 == x) = []) ∧
      (x ∉ seen → (dedupLoop l seen).filter (fun p => p.1 == x)
          = (l.filter (fun p => p.1 == x)).take 1)
  | [], seen, x => by simp [dedupLoop]
  | p :: rest, seen, x => by
    unfold dedupLoop
    constructor
    · intro hx
      by_cases hm : p.1 ∈ seen
      · rw [if_pos hm]
        exact (dedupLoop_filter rest seen x).1 hx
      · rw [if_neg hm]
        have hne : (p.1 == x) = false := by
          simp only [beq_eq_false_iff_ne, ne_eq]
          intro he; exact hm (he ▸ hx)
        rw [List.filter_cons_of_neg (by simp [hne])]
        exact (dedupLoop_filter rest (p.1 :: seen) x).1 (List.mem_cons_of_mem _ hx)
    · intro hx
      by_cases hm : p.1 ∈ seen
      · rw [if_pos hm]
        have hne : (p.1 == x) = false := by
          simp only [beq_eq_false_iff_ne, ne_eq]
          intro he; exact hx (he ▸ hm)
        rw [List.filter_cons_of_neg (by simp [hne])]
        exact (dedupLoop_filter rest seen x).2 hx
      · rw [if_neg hm]
        by_cases he : p.1 = x
        · have hbe : (p.1 == x) = true := by simp [he]
          rw [List.filter_cons_of_pos (by simp [hbe]),
            List.filter_cons_of_pos (by simp [hbe])]
          simp only [List.take_succ_cons, List.take_zero]
          rw [(dedupLoop_filter rest (p.1 :: seen) x).1 (by simp [he])]
        · have hbe : (p.1 == x) = false := by simp [he]
          rw [List.filter_cons_of_neg (by simp [hbe]),
            List.filter_cons_of_neg (by simp [hbe])]
          exact (dedupLoop_filter rest (p.1 :: seen) x).2
            (by simp [hx, Ne.symm, he])

/-- A successful validation returns exactly the sorted deduplicated
list. -/
theorem validateGroup_some (pairs : List (ℕ × PyStr)) (s : List (ℕ × PyStr))
    (h : validateGroup pairs = some s) :
    s = sortByOrdinal (dedupByOrdinal pairs) := by
  unfold validateGroup at h
  cases hn : (sortByOrdinal (dedupByOrdinal pairs)).map Prod.fst with
  | nil => simp only [hn] at h; exact absurd h (by simp)
  | cons n0 rest =>
    simp only [hn] at h
    by_cases h1 : n0 ≠ 1
    · rw [if_pos h1] at h; exact absurd h (by simp)
    rw [if_neg h1] at h
    by_cases h2 : (n0 :: rest).length ≤ 1
    · rw [if_pos (by simpa using h2)] at h; exact absurd h (by simp)
    rw [if_neg (by simpa using h2)] at h
    by_cases h3 : gapDetected (n0 :: rest) = true
    · rw [if_pos h3] at h; exact absurd h (by simp)
    rw [if_neg h3] at h
    exact (Option.some.injEq _ _ ▸ h).symm

/-- Claim C6: deduplication by ordinal is the stable first-occurrence
filter (it yields a sublist of the input, and restricted to any single
ordinal value it keeps exactly the first pair carrying it), and on
successful validation the files passed to the merge step are exactly the
deduplicated files in ascending-ordinal order (the sorted list is a
permutation of the deduplicated list whose ordinals are sorted). -/
theorem claim_C6 :
    (∀ l : List (ℕ × PyStr), List.Sublist (dedupByOrdinal l) l ∧
      ∀ x : ℕ, (dedupByOrdinal l).filter (fun p => p.1 == x)
        = (l.filter (fun p => p.1 == x)).take 1) ∧
    (∀ (d : PyStr) (files : List PyStr) (c : ℕ) (inv : List PyStr) (out : PyStr),
      (processGroup d files c).1 = some (inv, out) →
      inv = (sortByOrdinal (dedupByOrdinal (files_with_kapitel_or_teil files))).map Prod.snd ∧
      ((sortByOrdinal (dedupByOrdinal (files_with_kapitel_or_teil files))).map Prod.fst).Sorted (· ≤ ·) ∧
      (sortByOrdinal (dedupByOrdinal (files_with_kapitel_or_teil files))).Perm
        (dedupByOrdinal (files_with_kapitel_or_teil files))) := by
  constructor
  · intro l
    exact ⟨dedupLoop_sublist l [],
      fun x => (dedupLoop_filter l [] x).2 (List.not_mem_nil x)⟩
  · intro d files c inv out h
    unfold processGroup at h
    cases hv : validateGroup (files_with_kapitel_or_teil files) with
    | none => rw [hv] at h; exact absurd h (by simp)
    | some s =>
      rw [hv] at h
      have hs := validateGroup_some _ _ hv
      cases s with
      | nil => exact absurd h (by simp)
      | cons first rest =>
        simp only [Option.some.injEq, Prod.mk.injEq] at h
        haveI : IsTotal (ℕ × PyStr) (fun p q => p.1 ≤ q.1) :=
          ⟨fun a b => Nat.le_total a.1 b.1⟩
        haveI : IsTrans (ℕ × PyStr) (fun p q => p.1 ≤ q.1) :=
          ⟨fun _ _ _ h1 h2 => Nat.le_trans h1 h2⟩
        refine ⟨?_, ?_, ?_⟩
        · rw [← h.1, hs]
        · exact List.pairwise_map.mpr
            (List.sorted_insertionSort (fun p q : ℕ × PyStr => p.1 ≤ q.1) _)
        · exact List.perm_insertionSort (fun p q : ℕ × PyStr => p.1 ≤ q.1) _

/-- Witness for C6's second part at a concrete successful group. -/
theorem claim_C6_witness :
    ["/d/A Kapitel 1.mp3".toList, "/d/A Kapitel 2.mp3".toList]
      = (sortByOrdinal (dedupByOrdinal (files_with_kapitel_or_teil
          ["/d/A Kapitel 2.mp3".toList, "/d/A Kapitel 1.mp3".toList]))).map Prod.snd ∧
    ((sortByOrdinal (dedupByOrdinal (files_with_kapitel_or_teil
        ["/d/A Kapitel 2.mp3".toList, "/d/A Kapitel 1.mp3".toList]))).map Prod.fst).Sorted (· ≤ ·) ∧
    (sortByOrdinal (dedupByOrdinal (files_with_kapitel_or_teil
        ["/d/A Kapitel 2.mp3".toList, "/d/A Kapitel 1.mp3".toList]))).Perm
      (dedupByOrdinal (files_with_kapitel_or_teil
        ["/d/A Kapitel 2.mp3".toList, "/d/A Kapitel 1.mp3".toList])) :=
  claim_C6.2 "/d".toList
    ["/d/A Kapitel 2.mp3".toList, "/d/A Kapitel 1.mp3".toList] 1
    ["/d/A Kapitel 1.mp3".toList, "/d/A Kapitel 2.mp3".toList]
    "/d/001_A.mp3".toList (by decide)

/-- The sorting step is a permutation (it is an insertion sort). -/
theorem sortByOrdinal_perm (l : List (ℕ × PyStr)) : (sortByOrdinal l).Perm l := by
  unfold sortByOrdinal
  exact List.perm_insertionSort (fun p q => p.1 ≤ q.1) l

/-- The ordinals of the sorted list are ascending. -/
theorem sortByOrdinal_sorted (l : List (ℕ × PyStr)) :
    ((sortByOrdinal l).map Prod.fst).Sorted (· ≤ ·) := by
  haveI : IsTotal (ℕ × PyStr) (fun p q => p.1 ≤ q.1) :=
    ⟨fun a b => Nat.le_total a.1 b.1⟩
  haveI : IsTrans (ℕ × PyStr) (fun p q => p.1 ≤ q.1) :=
    ⟨fun _ _ _ h1 h2 => Nat.le_trans h1 h2⟩
  exact List.pairwise_map.mpr
    (List.sorted_insertionSort (fun p q : ℕ × PyStr => p.1 ≤ q.1) l)

/-- A filename with no Kapitel/Teil match gets the sentinel ordinal 0. -/
theorem extract_zero_of_no_marker (f : PyStr)
    (h : searchPos kapitelTeilAt f = none) :
    extract_kapitel_or_teil_number f = 0 := by
  unfold extract_kapitel_or_teil_number
  rw [h]

/-- The dedup loop keeps every ordinal value not already seen. -/
theorem mem_dedupLoop (l : List (ℕ × PyStr)) :
    ∀ (seen : List ℕ) (x : ℕ), x ∈ l.map Prod.fst → x ∉ seen →
      x ∈ (dedupLoop l seen).map Prod.fst := by
  induction l with
  | nil => intro seen x hx _; simp at hx
  | cons p rest ih =>
    intro seen x hx hns
    unfold dedupLoop
    rw [List.map_cons] at hx
    by_cases hm : p.1 ∈ seen
    · rw [if_pos hm]
      rcases List.mem_cons.mp hx with he | hx'
      · exact absurd (he ▸ hm) hns
      · exact ih seen x hx' hns
    · rw [if_neg hm]
      by_cases he : x = p.1
      · simp [he]
      · have hx' : x ∈ rest.map Prod.fst := by
          rcases List.mem_cons.mp hx with h1 | h1
          · exact absurd h1 he
          · exact h1
        simp only [List.map_cons, List.mem_cons]
        exact Or.inr (ih (p.1 :: seen) x hx' (by simp [he, hns]))

/-- In a `≤`-sorted list of naturals containing 0, the head is 0. -/
theorem head?_of_sorted_zero (l : List ℕ) (hs : l.Sorted (· ≤ ·))
    (h0 : 0 ∈ l) : l.head? = some 0 := by
  cases l with
  | nil => simp at h0
  | cons h t =>
    rcases List.mem_cons.mp h0 with he | ht
    · simp [← he]
    · have hle := (List.sorted_cons.mp hs).1 0 ht
      simp [Nat.le_zero.mp hle]

/-- When the smallest sorted ordinal is the sentinel 0, the start-at-1
check rejects the group. -/
theorem validateGroup_none_of_zero (pairs : List (ℕ × PyStr))
    (h : ((sortByOrdinal (dedupByOrdinal pairs)).map Prod.fst).head? = some 0) :
    validateGroup pairs = none := by
  unfold validateGroup
  cases hn : (sortByOrdinal (dedupByOrdinal pairs)).map Prod.fst with
  | nil => simp only [hn]
  | cons n0 rest =>
    rw [hn] at h
    simp only [List.head?_cons, Option.some.injEq] at h
    simp only [hn]
    rw [if_pos (by omega)]

/-- Claim C9: every group containing at least one file whose basename has
no Kapitel/Teil marker is rejected and no merge is invoked for it: the
sentinel ordinal 0 survives dedup and sorts to the front, so the smallest
ordinal is 0 and the start-at-1 check fails (and the counter is left
unchanged). -/
theorem claim_C9 (d : PyStr) (files : List PyStr) (c : ℕ)
    (h : ∃ f ∈ files, searchPos kapitelTeilAt (basename f) = none) :
    ((sortByOrdinal (dedupByOrdinal (files_with_kapitel_or_teil files))).map
        Prod.fst).head? = some 0 ∧
    processGroup d files c = (none, c) := by
  rcases h with ⟨f, hf, hnm⟩
  have h0mem : (0 : ℕ) ∈ (files_with_kapitel_or_teil files).map Prod.fst := by
    unfold files_with_kapitel_or_teil
    rw [List.map_map]
    exact List.mem_map.mpr
      ⟨f, hf, by simpa using extract_zero_of_no_marker _ hnm⟩
  have h0d : (0 : ℕ) ∈ (dedupByOrdinal (files_with_kapitel_or_teil files)).map Prod.fst :=
    mem_dedupLoop _ [] 0 h0mem (List.not_mem_nil 0)
  have h0s : (0 : ℕ)
      ∈ (sortByOrdinal (dedupByOrdinal (files_with_kapitel_or_teil files))).map Prod.fst :=
    ((sortByOrdinal_perm _).map Prod.fst).mem_iff.mpr h0d
  have hhead := head?_of_sorted_zero _ (sortByOrdinal_sorted _) h0s
  refine ⟨hhead, ?_⟩
  unfold processGroup
  rw [validateGroup_none_of_zero _ hhead]

/-- Witness for C9 at a concrete group. -/
theorem claim_C9_witness :
    ((sortByOrdinal (dedupByOrdinal (files_with_kapitel_or_teil
        ["/d/x Kapitel 1.mp3".toList, "/d/x.mp3".toList]))).map
        Prod.fst).head? = some 0 ∧
    processGroup "/d".toList
        ["/d/x Kapitel 1.mp3".toList, "/d/x.mp3".toList] 1 = (none, 1) :=
  claim_C9 "/d".toList ["/d/x Kapitel 1.mp3".toList, "/d/x.mp3".toList] 1
    (by decide)

/-- Appending to a group map preserves "all groups nonempty". -/
theorem addToGroup_nonempty :
    ∀ (gs : List (PyStr × List PyStr)) (key path : PyStr),
      (∀ g ∈ gs, g.2 ≠ []) → ∀ g ∈ addToGroup gs key path, g.2 ≠ []
  | [], key, path, _ => by
    intro g hg
    rcases List.mem_singleton.mp hg with rfl
    simp
  | (k, fs) :: rest, key, path, h => by
    intro g hg
    unfold addToGroup at hg
    by_cases hk : k = key
    · rw [if_pos hk] at hg
      rcases List.mem_cons.mp hg with rfl | hg'
      · simp
      · exact h g (List.mem_cons_of_mem _ hg')
    · rw [if_neg hk] at hg
      rcases List.mem_cons.mp hg with rfl | hg'
      · exact h (k, fs) (List.mem_cons_self _ _)
      · exact addToGroup_nonempty rest key path
          (fun g' hg' => h g' (List.mem_cons_of_mem _ hg')) g hg'

/-- One grouping step preserves "all groups nonempty". -/
theorem groupStep_nonempty (d : PyStr) (acc : List (PyStr × List PyStr))
    (f : PyStr) (hacc : ∀ g ∈ acc, g.2 ≠ []) :
    ∀ g ∈ groupStep d acc f, g.2 ≠ [] := by
  unfold groupStep
  by_cases hf : ".mp3".toList.isSuffixOf f = true
  · rw [if_pos hf]
    cases hk : findGroupKey (extract_title f) (acc.map Prod.fst) with
    | some k =>
      simp only [hk]
      exact addToGroup_nonempty acc k (joinPath d f) hacc
    | none =>
      simp only [hk]
      exact addToGroup_nonempty acc (extract_title f) (joinPath d f) hacc
  · rw [if_neg hf]
    exact hacc

/-- Every group produced by grouping is nonempty. -/
theorem groups_nonempty (d : PyStr) (listing : List PyStr) :
    ∀ acc : List (PyStr × List PyStr), (∀ g ∈ acc, g.2 ≠ []) →
      ∀ g ∈ listing.foldl (groupStep d) acc, g.2 ≠ [] := by
  induction listing with
  | nil => intro acc hacc; exact hacc
  | cons f rest ih =>
    intro acc hacc
    exact ih (groupStep d acc f) (groupStep_nonempty d acc f hacc)

/-- Dedup of a nonempty list is nonempty (its head is always kept). -/
theorem dedupByOrdinal_ne_nil (l : List (ℕ × PyStr)) (h : l ≠ []) :
    dedupByOrdinal l ≠ [] := by
  cases l with
  | nil => exact absurd rfl h
  | cons p rest =>
    unfold dedupByOrdinal dedupLoop
    rw [if_neg (List.not_mem_nil p.1)]
    simp

/-- Claim C10: every group produced by grouping is nonempty, deduplication
of a nonempty list is nonempty, and therefore the validator's access to
the first element of the sorted ordinal list is always in bounds
(`head?` is `some`): validation never fails with an indexing error. -/
theorem claim_C10 (d : PyStr) (listing : List PyStr) (g : PyStr × List PyStr)
    (hg : g ∈ group_files_by_similarity d listing) :
    g.2 ≠ [] ∧
    dedupByOrdinal (files_with_kapitel_or_teil g.2) ≠ [] ∧
    (((sortByOrdinal (dedupByOrdinal (files_with_kapitel_or_teil g.2))).map
        Prod.fst).head?).isSome = true := by
  have hne : g.2 ≠ [] :=
    groups_nonempty d listing [] (by simp) g hg
  have hpne : files_with_kapitel_or_teil g.2 ≠ [] := by
    unfold files_with_kapitel_or_teil
    simpa using hne
  have hdne := dedupByOrdinal_ne_nil _ hpne
  refine ⟨hne, hdne, ?_⟩
  have hlen : (sortByOrdinal (dedupByOrdinal (files_with_kapitel_or_teil g.2))).length
      = (dedupByOrdinal (files_with_kapitel_or_teil g.2)).length :=
    (sortByOrdinal_perm _).length_eq
  cases hs : sortByOrdinal (dedupByOrdinal (files_with_kapitel_or_teil g.2)) with
  | nil =>
    rw [hs] at hlen
    exact absurd (List.length_eq_zero.mp hlen.symm) hdne
  | cons q rest => simp

/-- Witness for C10 at a concrete listing. -/
theorem claim_C10_witness :
    ("a".toList, ["/d/a.mp3".toList]).2 ≠ [] ∧
    dedupByOrdinal (files_with_kapitel_or_teil
      ("a".toList, ["/d/a.mp3".toList]).2) ≠ [] ∧
    (((sortByOrdinal (dedupByOrdinal (files_with_kapitel_or_teil
        ("a".toList, ["/d/a.mp3".toList]).2))).map Prod.fst).head?).isSome = true :=
  claim_C10 "/d".toList ["a.mp3".toList] ("a".toList, ["/d/a.mp3".toList])
    (by decide)

/-- Membership in a `b2j` position list implies being a position of the
character. -/
theorem mem_b2j_imp (b : PyStr) (c : Char) (j : ℕ) (h : j ∈ b2j b c) :
    j < b.length ∧ b.get? j = some c := by
  unfold b2j at h
  split_ifs at h with hP
  · exact absurd h (List.not_mem_nil j)
  · simpa [positionsOf, List.mem_filter, List.mem_range] using h

/-- If some position of `c` survives the autojunk purge then every
position of `c` does (the purge removes whole characters, not single
positions). -/
theorem mem_b2j_of_mem (b : PyStr) (c : Char) (j j' : ℕ) (h : j ∈ b2j b c)
    (hlt : j' < b.length) (hg : b.get? j' = some c) : j' ∈ b2j b c := by
  unfold b2j at h ⊢
  split_ifs at h ⊢ with hP
  · exact absurd h (List.not_mem_nil j)
  · exact List.mem_filter.mpr ⟨List.mem_range.mpr hlt, decide_eq_true hg⟩

/-- Every `b2j` position list is ascending. -/
theorem b2j_pairwise (b : PyStr) (c : Char) : (b2j b c).Pairwise (· < ·) := by
  unfold b2j
  split_ifs with hP
  · exact List.Pairwise.nil
  · exact List.Pairwise.sublist (List.filter_sublist _) (List.sorted_lt_range _)

/-- If iteration `i` sees any position at all, it sees its own diagonal
position. -/
theorem jsOf_self (a : PyStr) (i j : ℕ) (h : j ∈ jsOf a i) : i ∈ jsOf a i := by
  unfold jsOf at h ⊢
  cases hg : a.get? i with
  | none => rw [hg] at h; exact absurd h (List.not_mem_nil j)
  | some c =>
    rw [hg] at h
    have hlt : i < a.length := by
      by_contra hge
      rw [List.get?_eq_none.mpr (by omega)] at hg
      exact Option.noConfusion hg
    exact mem_b2j_of_mem a c j i h hlt hg

/-- A position seen at iteration `i` is also seen at its own iteration
(on the pair `(a, a)` the relation is symmetric in this sense). -/
theorem jsOf_pos (a : PyStr) (i j : ℕ) (h : j ∈ jsOf a i) : j ∈ jsOf a j := by
  unfold jsOf at h ⊢
  cases hg : a.get? i with
  | none => rw [hg] at h; exact absurd h (List.not_mem_nil j)
  | some c =>
    rw [hg] at h
    obtain ⟨hlt, hgj⟩ := mem_b2j_imp a c j h
    rw [hgj]
    exact h

/-- Positions seen at iteration `i` are inside the string. -/
theorem jsOf_lt (a : PyStr) (i j : ℕ) (h : j ∈ jsOf a i) : j < a.length := by
  unfold jsOf at h
  cases hg : a.get? i with
  | none => rw [hg] at h; exact absurd h (List.not_mem_nil j)
  | some c => rw [hg] at h; exact (mem_b2j_imp a c j h).1

/-- The position list of an iteration is ascending. -/
theorem jsOf_pairwise (a : PyStr) (i : ℕ) : (jsOf a i).Pairwise (· < ·) := by
  unfold jsOf
  cases a.get? i with
  | none => exact List.Pairwise.nil
  | some c => exact b2j_pairwise a c

/-- Unseen positions carry a zero chain length. -/
theorem rlen_zero_of_not_mem (a : PyStr) :
    ∀ i j, j ∉ jsOf a i → rlen a i j = 0
  | 0, j, h => by simp [rlen, h]
  | i + 1, 0, h => by simp [rlen, h]
  | i + 1, j + 1, h => by simp [rlen, h]

/-- The `k` computed by the inner loop at a seen position equals the
chain length `rlen`. -/
theorem rlen_eq (a : PyStr) :
    ∀ i j, j ∈ jsOf a i →
      rlen a i j = (if j = 0 then 0 else prevFun a i (j - 1)) + 1
  | 0, 0, h => by simp [rlen, h]
  | 0, j + 1, h => by simp [rlen, h, prevFun]
  | i + 1, 0, h => by simp [rlen, h]
  | i + 1, j + 1, h => by simp [rlen, h, prevFun]

/-- The diagonal chain length is `rlen` on the diagonal. -/
theorem rlen_diag (a : PyStr) : ∀ i, rlen a i i = diagRun a i
  | 0 => rfl
  | i + 1 => by
    by_cases h : i + 1 ∈ jsOf a (i + 1) <;>
      simp [rlen, diagRun, h, rlen_diag a i]

/-- A diagonal chain is visible at its own endpoint exactly when positive
(first direction). -/
theorem diagRun_pos_of_mem (a : PyStr) (i : ℕ) (h : i ∈ jsOf a i) :
    1 ≤ diagRun a i := by
  cases i with
  | zero => simp [diagRun, h]
  | succ i => simp [diagRun, h]

/-- An endpoint with no visible position has a zero diagonal chain. -/
theorem diagRun_zero_of_not_mem (a : PyStr) (i : ℕ) (h : i ∉ jsOf a i) :
    diagRun a i = 0 := by
  cases i with
  | zero => simp [diagRun, h]
  | succ i => simp [diagRun, h]

/-- Diagonal chains are bounded by the position. -/
theorem diagRun_le (a : PyStr) : ∀ i, diagRun a i ≤ i + 1
  | 0 => by by_cases h : 0 ∈ jsOf a 0 <;> simp [diagRun, h]
  | i + 1 => by
    by_cases h : i + 1 ∈ jsOf a (i + 1)
    · simp only [diagRun, if_pos h]
      exact Nat.succ_le_succ (diagRun_le a i)
    · simp [diagRun, h]

/-- Any chain ending at row `i` is bounded by the diagonal chain at
`i` (the chain's cells are visible, so the diagonal cells above them are
too). -/
theorem rlen_le_left (a : PyStr) : ∀ i j, rlen a i j ≤ diagRun a i
  | 0, j => by
    by_cases h : j ∈ jsOf a 0
    · have h0 := jsOf_self a 0 j h
      simp [rlen, diagRun, h, h0]
    · simp [rlen, h]
  | i + 1, 0 => by
    by_cases h : 0 ∈ jsOf a (i + 1)
    · have hs := jsOf_self a (i + 1) 0 h
      simp only [rlen, if_pos h, diagRun, if_pos hs]
      omega
    · simp [rlen, h]
  | i + 1, j + 1 => by
    by_cases h : j + 1 ∈ jsOf a (i + 1)
    · have hs := jsOf_self a (i + 1) (j + 1) h
      simp only [rlen, if_pos h, diagRun, if_pos hs]
      exact Nat.succ_le_succ (rlen_le_left a i j)
    · simp [rlen, h]

/-- Any chain ending at column `j` is bounded by the diagonal chain at
`j`. -/
theorem rlen_le_right (a : PyStr) : ∀ i j, rlen a i j ≤ diagRun a j
  | 0, j => by
    by_cases h : j ∈ jsOf a 0
    · have hj := jsOf_pos a 0 j h
      simpa [rlen, h] using diagRun_pos_of_mem a j hj
    · simp [rlen, h]
  | i + 1, 0 => by
    by_cases h : 0 ∈ jsOf a (i + 1)
    · have hj := jsOf_pos a (i + 1) 0 h
      simpa [rlen, h] using diagRun_pos_of_mem a 0 hj
    · simp [rlen, h]
  | i + 1, j + 1 => by
    by_cases h : j + 1 ∈ jsOf a (i + 1)
    · have hj := jsOf_pos a (i + 1) (j + 1) h
      simp only [rlen, if_pos h, diagRun, if_pos hj]
      exact Nat.succ_le_succ (rlen_le_right a i j)
    · simp [rlen, h]

/-- Main invariant of the inner loop of `find_longest_match` on the pair
`(a, a)`: processing (a tail of) the ascending position list of iteration
`i` keeps the best triple on the diagonal, within bounds and dominating
all diagonal chains up to `i`, and the fresh `newj2len` ends up computing
`rlen a i`. -/
theorem flmInner_spec (a : PyStr) (i : ℕ) (hi : i < a.length)
    (j2len : ℕ → ℕ) (hread : ∀ j, j2len j = prevFun a i j) :
    ∀ (js : List ℕ) (newf : ℕ → ℕ) (st : Match3),
      js.Pairwise (· < ·) →
      (∀ j ∈ js, j ∈ jsOf a i) →
      (∀ j, newf j = if j ∈ js then 0 else rlen a i j) →
      StInv a i st →
      (i ∈ js ∨ diagRun a i ≤ st.bestsize) →
      (∀ j, (flmInner i 0 a.length j2len js newf st).1 j = rlen a i j) ∧
      StInv a (i + 1) (flmInner i 0 a.length j2len js newf st).2
  | [], newf, st => by
    intro _ _ hnew hst hdis
    simp only [flmInner]
    refine ⟨fun j => by simpa using hnew j, hst.1, hst.2.1, ?_⟩
    intro i' hi'
    rcases Nat.lt_succ_iff_lt_or_eq.mp hi' with h | h
    · exact hst.2.2 i' h
    · subst h
      rcases hdis with h | h
      · exact absurd h (List.not_mem_nil i')
      · exact h
  | j0 :: js', newf, st => by
    intro hpw hmem hnew hst hdis
    have hj0 : j0 ∈ jsOf a i := hmem j0 (List.mem_cons_self _ _)
    have hj0lt : j0 < a.length := jsOf_lt a i j0 hj0
    have hj0nd : j0 ∉ js' := fun hmem' =>
      Nat.lt_irrefl j0 ((List.pairwise_cons.mp hpw).1 j0 hmem')
    have hk : (if j0 = 0 then 0 else j2len (j0 - 1)) + 1 = rlen a i j0 := by
      rw [rlen_eq a i j0 hj0]
      by_cases h0 : j0 = 0 <;> simp [h0, hread]
    have heq : flmInner i 0 a.length j2len (j0 :: js') newf st
        = flmInner i 0 a.length j2len js'
            (Function.update newf j0 (rlen a i j0))
            (if st.bestsize < rlen a i j0
             then ⟨i + 1 - rlen a i j0, j0 + 1 - rlen a i j0, rlen a i j0⟩
             else st) := by
      simp only [flmInner]
      rw [if_neg (by omega : ¬ j0 < 0), if_neg (by omega : ¬ a.length ≤ j0), hk]
    rw [heq]
    have hnew' : ∀ j, Function.update newf j0 (rlen a i j0) j
        = if j ∈ js' then 0 else rlen a i j := by
      intro j
      by_cases hjj : j = j0
      · subst hjj
        rw [Function.update_same, if_neg hj0nd]
      · rw [Function.update_noteq hjj, hnew j]
        by_cases hj' : j ∈ js'
        · rw [if_pos (List.mem_cons_of_mem _ hj'), if_pos hj']
        · rw [if_neg (by simp [hjj, hj']), if_neg hj']
    by_cases hup : st.bestsize < rlen a i j0
    · rw [if_pos hup]
      have hji : j0 = i := by
        by_contra hne
        rcases hdis with hmemi | hbound
        · rcases List.mem_cons.mp hmemi with he | hi'
          · exact hne he.symm
          · have hj0i : j0 < i := (List.pairwise_cons.mp hpw).1 i hi'
            have hle : rlen a i j0 ≤ st.bestsize :=
              le_trans (rlen_le_right a i j0) (hst.2.2 j0 hj0i)
            omega
        · have hle : rlen a i j0 ≤ st.bestsize :=
            le_trans (rlen_le_left a i j0) hbound
          omega
      subst hji
      have hRle : rlen a j0 j0 ≤ j0 + 1 :=
        le_trans (Nat.le_of_eq (rlen_diag a j0)) (diagRun_le a j0)
      refine flmInner_spec a j0 hi j2len hread js' _ _
        (List.pairwise_cons.mp hpw).2
        (fun j hj => hmem j (List.mem_cons_of_mem _ hj)) hnew'
        ⟨rfl, by simp only []; omega, ?_⟩ (Or.inr ?_)
      · intro i' hi'
        simp only []
        exact le_trans (le_of_lt (lt_of_le_of_lt (hst.2.2 i' hi') hup))
          (le_refl _)
      · simp only []
        exact Nat.le_of_eq (rlen_diag a j0).symm
    · rw [if_neg hup]
      refine flmInner_spec a i hi j2len hread js' _ _
        (List.pairwise_cons.mp hpw).2
        (fun j hj => hmem j (List.mem_cons_of_mem _ hj)) hnew' hst ?_
      rcases hdis with hmemi | hbound
      · rcases List.mem_cons.mp hmemi with he | hi'
        · refine Or.inr ?_
          rw [← he] at hup
          have hd : diagRun a i = rlen a i i := (rlen_diag a i).symm
          omega
        · exact Or.inl hi'
      · exact Or.inr hbound

/-- Main-loop invariant of `find_longest_match` on the pair `(a, a)`:
running iterations `i, i+1, ..., i+m-1` preserves the state invariant. -/
theorem flmOuter_spec (a : PyStr) :
    ∀ (m i : ℕ) (j2len : ℕ → ℕ) (st : Match3),
      i + m ≤ a.length →
      (∀ j, j2len j = prevFun a i j) →
      StInv a i st →
      StInv a (i + m)
        (flmOuter a (b2j a) 0 a.length (List.range' i m) j2len st)
  | 0, i, j2len, st => by
    intro _ _ hst
    simpa [flmOuter] using hst
  | m + 1, i, j2len, st => by
    intro hle hread hst
    rw [List.range'_succ]
    simp only [flmOuter]
    have hi : i < a.length := by omega
    have hjs : (match a.get? i with
        | some c => b2j a c
        | none => ([] : List ℕ)) = jsOf a i := by
      unfold jsOf
      rfl
    rw [hjs]
    have hinner := flmInner_spec a i hi j2len hread (jsOf a i) (fun _ => 0) st
      (jsOf_pairwise a i) (fun _ hj => hj)
      (by
        intro j
        by_cases hj : j ∈ jsOf a i
        · rw [if_pos hj]
        · rw [if_neg hj, rlen_zero_of_not_mem a i j hj])
      hst
      (by
        by_cases hii : i ∈ jsOf a i
        · exact Or.inl hii
        · exact Or.inr (by
            rw [diagRun_zero_of_not_mem a i hii]
            omega))
    have houter := flmOuter_spec a m (i + 1)
      (flmInner i 0 a.length j2len (jsOf a i) (fun _ => 0) st).1
      (flmInner i 0 a.length j2len (jsOf a i) (fun _ => 0) st).2
      (by omega)
      (by
        intro j
        rw [hinner.1 j]
        rfl)
      hinner.2
    have harith : i + 1 + m = i + (m + 1) := by omega
    rw [harith] at houter
    exact houter

/-- The first extension loop walks a diagonal best match down to the
origin on the pair `(a, a)`. -/
theorem extendLower_diag (a : PyStr) :
    ∀ (d s : ℕ), d ≤ a.length → extendLower a a 0 0 d d s = ⟨0, 0, s + d⟩
  | 0, s, _ => by simp [extendLower]
  | d + 1, s, hd => by
    have hdl : d < a.length := by omega
    obtain ⟨x, hx⟩ : ∃ x, a.get? d = some x := by
      cases hg : a.get? d with
      | none =>
        rw [List.get?_eq_none] at hg
        omega
      | some x => exact ⟨x, rfl⟩
    unfold extendLower
    rw [if_pos ⟨by omega, by omega, by
      show charEqOpt (a.get? d) (a.get? (d + 1 - 1)) = true
      have h1 : d + 1 - 1 = d := by omega
      rw [h1, hx]
      simp [charEqOpt]⟩]
    have h1 : d + 1 - 1 = d := by omega
    rw [h1]
    rw [extendLower_diag a d (s + 1) (by omega)]
    have h2 : s + 1 + d = s + (d + 1) := by omega
    rw [h2]

/-- The second extension loop walks a diagonal match at the origin up to
the full string on the pair `(a, a)`. -/
theorem extendUpper_diag (a : PyStr) :
    ∀ (fuel m : ℕ), fuel = a.length - m → m ≤ a.length →
      extendUpperF a a a.length a.length 0 0 fuel m = a.length
  | 0, m, hf, hm => by
    simp only [extendUpperF]
    omega
  | fuel + 1, m, hf, hm => by
    have hml : m < a.length := by omega
    obtain ⟨x, hx⟩ : ∃ x, a.get? m = some x := by
      cases hg : a.get? m with
      | none =>
        rw [List.get?_eq_none] at hg
        omega
      | some x => exact ⟨x, rfl⟩
    unfold extendUpperF
    rw [if_pos ⟨by omega, by omega, by
      show charEqOpt (a.get? (0 + m)) (a.get? (0 + m)) = true
      have h0 : 0 + m = m := by omega
      rw [h0, hx]
      simp [charEqOpt]⟩]
    exact extendUpper_diag a fuel (m + 1) (by omega) (by omega)

/-- The finishing stage turns any diagonal in-bounds best triple into the
full match on the pair `(a, a)`. -/
theorem flmFinish_diag (a : PyStr) (st : Match3) (hd : st.besti = st.bestj)
    (hsum : st.besti + st.bestsize ≤ a.length) :
    flmFinish a a 0 a.length 0 a.length st = ⟨0, 0, a.length⟩ := by
  unfold flmFinish
  rw [← hd, extendLower_diag a st.besti st.bestsize (by omega)]
  dsimp only
  rw [extendUpper_diag a (a.length - (0 + (st.bestsize + st.besti)))
    (st.bestsize + st.besti) (by omega) (by omega)]

/-- On a pair of identical strings, `find_longest_match` over the whole
region returns the full diagonal match. -/
theorem flm_self (a : PyStr) (hn : 0 < a.length) :
    find_longest_match a a (b2j a) 0 a.length 0 a.length
      = ⟨0, 0, a.length⟩ := by
  unfold find_longest_match
  have hsub : a.length - 0 = a.length := by omega
  rw [hsub]
  obtain ⟨hd, hsum, -⟩ := flmOuter_spec a a.length 0 (fun _ => 0) ⟨0, 0, 0⟩
    (by omega) (fun j => rfl)
    ⟨rfl, by simp, fun i' h => absurd h (Nat.not_lt_zero i')⟩
  exact flmFinish_diag a _ hd hsum

/-- `SequenceMatcher(None, a, a).ratio()` is exactly 1 for every string
`a` (with `isjunk = None` the extension loops always recover the full
diagonal match, even when autojunk purges popular characters). -/
theorem ratioQ_self (a : PyStr) : ratioQ a a = 1 := by
  unfold ratioQ
  by_cases hz : a.length + a.length = 0
  · rw [if_pos hz]
  · rw [if_neg hz]
    have hn : 0 < a.length := by omega
    have hn0 : a.length ≠ 0 := by omega
    have hm : matchTotalF a a (b2j a) (a.length + a.length + 1)
        0 a.length 0 a.length = a.length := by
      have h1 : matchTotalF a a (b2j a) (a.length + a.length + 1) 0 a.length 0 a.length
          = (if (find_longest_match a a (b2j a) 0 a.length 0 a.length).bestsize = 0 then 0
             else
               (if 0 < (find_longest_match a a (b2j a) 0 a.length 0 a.length).besti ∧
                   0 < (find_longest_match a a (b2j a) 0 a.length 0 a.length).bestj
                then matchTotalF a a (b2j a) (a.length + a.length) 0
                       (find_longest_match a a (b2j a) 0 a.length 0 a.length).besti 0
                       (find_longest_match a a (b2j a) 0 a.length 0 a.length).bestj
                else 0)
               + (find_longest_match a a (b2j a) 0 a.length 0 a.length).bestsize
               + (if (find_longest_match a a (b2j a) 0 a.length 0 a.length).besti
                       + (find_longest_match a a (b2j a) 0 a.length 0 a.length).bestsize
                       < a.length ∧
                     (find_longest_match a a (b2j a) 0 a.length 0 a.length).bestj
                       + (find_longest_match a a (b2j a) 0 a.length 0 a.length).bestsize
                       < a.length
                  then matchTotalF a a (b2j a) (a.length + a.length)
                         ((find_longest_match a a (b2j a) 0 a.length 0 a.length).besti
                           + (find_longest_match a a (b2j a) 0 a.length 0 a.length).bestsize)
                         a.length
                         ((find_longest_match a a (b2j a) 0 a.length 0 a.length).bestj
                           + (find_longest_match a a (b2j a) 0 a.length 0 a.length).bestsize)
                         a.length
                  else 0)) := rfl
      rw [h1, flm_self a hn]
      simp [hn0]
    rw [hm]
    rw [Rat.mkRat_eq_divInt]
    rw [show (2 * (a.length : ℤ)) = ((a.length + a.length : ℕ) : ℤ) from by
      push_cast; ring]
    exact Rat.divInt_self' (by exact_mod_cast hz)

/-- Claim C4 (counterexample): `similar` is not symmetric — on the pair
("dexfg", "fgdeQx") the greedy longest-match tie-breaking differs between
the two argument orders (6/11 one way, 4/11 the other), refuting
`similarity(a,b) = similarity(b,a)`. -/
theorem claim_C4_counterexample :
    similar "dexfg".toList "fgdeQx".toList
      ≠ similar "fgdeQx".toList "dexfg".toList := by decide

/-- Claim C4 (amended): `similar(a, a) = 1.0` holds for every string `a`;
the symmetry half of the claim is false — `SequenceMatcher.ratio` depends
on the argument order. -/
theorem claim_C4_amended : ∀ a : PyStr, similar a a = 1 := fun a =>
  ratioQ_self a

/-- Any title is strictly more similar to itself than the threshold. -/
theorem similar_self_gt (t : PyStr) : similarity_threshold < similar t t := by
  unfold similar
  rw [ratioQ_self t]
  unfold similarity_threshold
  decide

/-- A found group key is one of the existing keys. -/
theorem findGroupKey_mem (t : PyStr) :
    ∀ (keys : List PyStr) (k : PyStr), findGroupKey t keys = some k → k ∈ keys
  | [], k, h => Option.noConfusion h
  | k0 :: rest, k, h => by
    unfold findGroupKey at h
    split_ifs at h with hs
    · cases h
      exact List.mem_cons_self _ _
    · exact List.mem_cons_of_mem _ (findGroupKey_mem t rest k h)

/-- A failed search means no existing key is similar enough. -/
theorem findGroupKey_none (t : PyStr) :
    ∀ keys : List PyStr, findGroupKey t keys = none →
      ∀ k ∈ keys, ¬ similarity_threshold < similar t k
  | [], _, k, hk => absurd hk (List.not_mem_nil k)
  | k0 :: rest, h, k, hk => by
    unfold findGroupKey at h
    split_ifs at h with hs
    rcases List.mem_cons.mp hk with rfl | hk'
    · exact hs
    · exact findGroupKey_none t rest h k hk'

/-- In particular the file's own title is not an existing key after a
failed search (it would match itself with similarity 1). -/
theorem not_mem_of_findGroupKey_none (t : PyStr) (keys : List PyStr)
    (h : findGroupKey t keys = none) : t ∉ keys := fun hmem =>
  findGroupKey_none t keys h t hmem (similar_self_gt t)

/-- Appending to an existing key leaves the key list unchanged. -/
theorem addToGroup_keys_mem :
    ∀ (gs : List (PyStr × List PyStr)) (key p : PyStr),
      key ∈ gs.map Prod.fst →
      (addToGroup gs key p).map Prod.fst = gs.map Prod.fst
  | [], key, p, h => absurd h (List.not_mem_nil key)
  | (k0, fs0) :: rest, key, p, h => by
    unfold addToGroup
    by_cases hk : k0 = key
    · rw [if_pos hk]
      simp
    · rw [if_neg hk]
      rw [List.map_cons] at h
      have h' : key ∈ rest.map Prod.fst := by
        rcases List.mem_cons.mp h with he | h'
        · exact absurd he.symm hk
        · exact h'
      simp only [List.map_cons]
      rw [addToGroup_keys_mem rest key p h']

/-- Creating a fresh key appends it at the end of the key list. -/
theorem addToGroup_keys_new :
    ∀ (gs : List (PyStr × List PyStr)) (key p : PyStr),
      key ∉ gs.map Prod.fst →
      (addToGroup gs key p).map Prod.fst = gs.map Prod.fst ++ [key]
  | [], key, p, _ => rfl
  | (k0, fs0) :: rest, key, p, h => by
    unfold addToGroup
    have hk : k0 ≠ key := by
      intro he
      exact h (by simp [he])
    rw [if_neg hk]
    simp only [List.map_cons, List.cons_append]
    rw [addToGroup_keys_new rest key p (by
      intro hmem
      exact h (by simp [hmem]))]

/-- With pairwise-distinct keys, the script's insertion (find the first
similar key, then append by key) agrees with the claim's insertion
(append to the first similar group, else create one at the end). -/
theorem insert_eq (t p : PyStr) :
    ∀ groups : List (PyStr × List PyStr),
      (groups.map Prod.fst).Nodup →
      (match findGroupKey t (groups.map Prod.fst) with
       | some k => addToGroup groups k p
       | none => addToGroup groups t p) = specInsert t p groups
  | [], _ => by simp [findGroupKey, addToGroup, specInsert]
  | (k0, fs0) :: rest, hnd => by
    by_cases hsim : similarity_threshold < similar t k0
    · simp only [List.map_cons, findGroupKey, if_pos hsim]
      unfold addToGroup
      rw [if_pos rfl]
      unfold specInsert
      rw [if_pos hsim]
    · simp only [List.map_cons, findGroupKey, if_neg hsim]
      unfold specInsert
      rw [if_neg hsim]
      rw [List.map_cons] at hnd
      have hk0 : k0 ∉ rest.map Prod.fst := (List.nodup_cons.mp hnd).1
      have ih := insert_eq t p rest (List.nodup_cons.mp hnd).2
      cases hf : findGroupKey t (rest.map Prod.fst) with
      | some k =>
        have hkmem : k ∈ rest.map Prod.fst := findGroupKey_mem t _ k hf
        have hne : k0 ≠ k := fun he => hk0 (he ▸ hkmem)
        rw [hf] at ih
        unfold addToGroup
        rw [if_neg hne]
        exact congrArg (List.cons (k0, fs0)) ih
      | none =>
        have hne : k0 ≠ t := by
          intro he
          exact hsim (he ▸ similar_self_gt t)
        rw [hf] at ih
        unfold addToGroup
        rw [if_neg hne]
        exact congrArg (List.cons (k0, fs0)) ih

/-- One grouping step of the script equals the claim's step, on states
with pairwise-distinct keys. -/
theorem groupStep_eq_spec (d f : PyStr) (acc : List (PyStr × List PyStr))
    (hnd : (acc.map Prod.fst).Nodup) :
    groupStep d acc f = specGroupStep d acc f := by
  unfold groupStep specGroupStep
  by_cases hmp3 : (".mp3".toList.isSuffixOf f) = true
  · rw [if_pos hmp3, if_pos hmp3]
    exact insert_eq (extract_title f) (joinPath d f) acc hnd
  · rw [if_neg hmp3, if_neg hmp3]

/-- One grouping step preserves distinctness of the keys. -/
theorem groupStep_nodup (d f : PyStr) (acc : List (PyStr × List PyStr))
    (hnd : (acc.map Prod.fst).Nodup) :
    ((groupStep d acc f).map Prod.fst).Nodup := by
  unfold groupStep
  by_cases hmp3 : (".mp3".toList.isSuffixOf f) = true
  · rw [if_pos hmp3]
    cases hf : findGroupKey (extract_title f) (acc.map Prod.fst) with
    | some k =>
      simp only
      rw [addToGroup_keys_mem acc k (joinPath d f) (findGroupKey_mem _ _ _ hf)]
      exact hnd
    | none =>
      simp only
      rw [addToGroup_keys_new acc (extract_title f) (joinPath d f)
        (not_mem_of_findGroupKey_none _ _ hf)]
      exact List.nodup_append.mpr
        ⟨hnd, List.nodup_singleton _,
         fun x hx hx' => (not_mem_of_findGroupKey_none _ _ hf)
           ((List.mem_singleton.mp hx') ▸ hx)⟩
  · rw [if_neg hmp3]
    exact hnd

/-- The whole fold of the script equals the claim's fold, from any state
with pairwise-distinct keys. -/
theorem fold_eq_spec (d : PyStr) :
    ∀ (listing : List PyStr) (acc : List (PyStr × List PyStr)),
      (acc.map Prod.fst).Nodup →
      listing.foldl (groupStep d) acc = listing.foldl (specGroupStep d) acc
  | [], _, _ => rfl
  | f :: rest, acc, hnd => by
    rw [List.foldl_cons, List.foldl_cons, ← groupStep_eq_spec d f acc hnd]
    exact fold_eq_spec d rest (groupStep d acc f) (groupStep_nodup d f acc hnd)

/-- Claim C5: grouping processes filenames in listing order, considers
only files with the `.mp3` extension (all other entries are ignored), and
appends each file to the first existing group, in group-creation order,
whose representative title has similarity with the file's title strictly
exceeding the threshold 0.9 — creating a new group keyed by the file's
own title otherwise.  Formally, `group_files_by_similarity` equals the
fold of exactly that insertion step over the listing. -/
theorem claim_C5 (d : PyStr) (listing : List PyStr) :
    group_files_by_similarity d listing = specGroup d listing := by
  unfold group_files_by_similarity specGroup
  exact fold_eq_spec d listing [] List.nodup_nil

end MergeMp3
